import Mathlib

/-!
Verification development for the UI-TARS action parsing and element
resolution core (`browser_use/agent/uitars/parser.py`).

The Python code is shallowly embedded over `List Char` (Python `str`),
`ℚ` (Python `float`; every concrete value appearing in the claims is
exactly representable, and all arithmetic performed on them is exact),
`Option` (Python `None`) and `Except PyErr` (Python exceptions).
Scanning loops of the regular expressions used by the source are
translated into fuel-based recursions (fuel is always at least
`length + 1`, enough for loops that consume at least one character per
step), so that every definition evaluates by kernel reduction.
-/

/- Batteries marks the rational-number operations `@[irreducible]`;
they are made semireducible locally so that concrete runs of the
embedded code evaluate by reduction. -/
attribute [local semireducible] Rat.mul Rat.inv Rat.add Rat.sub Rat.ofScientific

deriving instance DecidableEq for Except

namespace UITars

/-- Python whitespace characters (the ASCII portion relevant here):
space, tab, newline, carriage return, vertical tab, form feed. -/
def isPyWS (c : Char) : Bool :=
  c.toNat = 32 || c.toNat = 9 || c.toNat = 10 || c.toNat = 13 ||
  c.toNat = 11 || c.toNat = 12

/-- Characters matched by the regex class `\w` (ASCII letters, digits,
underscore; the inputs handled by the parser are ASCII). -/
def isWordChar (c : Char) : Bool :=
  (48 ≤ c.toNat && c.toNat ≤ 57) || (65 ≤ c.toNat && c.toNat ≤ 90) ||
  (97 ≤ c.toNat && c.toNat ≤ 122) || c.toNat = 95

/-- The single-quote character, written by code point. -/
def qS : Char := Char.ofNat 39

/-- Quote characters stripped by `value.strip` in `parse_action` and
matched by the `[\x27"]` classes of the tokenizer regexes. -/
def isQuoteCh (c : Char) : Bool := c = qS || c = '"'

/-- Python `str.lstrip()`. -/
def lstripL (s : List Char) : List Char := s.dropWhile isPyWS

/-- Python `str.rstrip()`. -/
def rstripL (s : List Char) : List Char := (s.reverse.dropWhile isPyWS).reverse

/-- Python `str.strip()`. -/
def stripL (s : List Char) : List Char := rstripL (lstripL s)

/-- Python `str.startswith`. -/
def startsWithL : List Char → List Char → Bool
  | [], _ => true
  | _ :: _, [] => false
  | p :: ps, c :: cs => p = c && startsWithL ps cs

/-- Python substring membership `needle in hay`. -/
def containsSub (needle : List Char) : List Char → Bool
  | [] => needle.isEmpty
  | s@(_ :: rest) => startsWithL needle s || containsSub needle rest

/-- Python `str.split(sep)` scanning loop (`sep` nonempty in all uses);
`acc` holds the current piece reversed. -/
def splitGo (sep : List Char) : ℕ → List Char → List Char → List (List Char)
  | 0, acc, rem => [acc.reverse ++ rem]
  | fuel + 1, acc, rem =>
    if startsWithL sep rem then
      acc.reverse :: splitGo sep fuel [] (rem.drop sep.length)
    else
      match rem with
      | [] => [acc.reverse]
      | c :: rest => splitGo sep fuel (c :: acc) rest

/-- Python `str.split(sep)` for a nonempty separator. -/
def splitOnSub (sep s : List Char) : List (List Char) :=
  splitGo sep (s.length + 1) [] s

/-- Python `str.replace(old, new)` scanning loop (`old` nonempty in all
uses). -/
def replaceGo (old new : List Char) : ℕ → List Char → List Char
  | 0, s => s
  | fuel + 1, s =>
    if startsWithL old s then new ++ replaceGo old new fuel (s.drop old.length)
    else
      match s with
      | [] => []
      | c :: rest => c :: replaceGo old new fuel rest

/-- Python `str.replace(old, new)` for a nonempty `old`. -/
def replaceSub (old new s : List Char) : List Char :=
  replaceGo old new (s.length + 1) s

/-- Python `pair.split('=', 1)`: the part before the first `=` and,
when a `=` exists, the part after it. -/
def splitFirstEq (pair : List Char) : List Char × Option (List Char) :=
  let k := pair.takeWhile (· ≠ '=')
  match pair.drop k.length with
  | '=' :: rest => (k, some rest)
  | _ => (k, none)

/-- Python exceptions that can escape `parse_action_vlm`. -/
inductive PyErr where
  | valueError
  | indexError
  | zeroDivisionError
deriving DecidableEq, Repr

/-- A value held by an `ActionInputs` field. Python stores either a
string (`setattr` of a raw argument, or `json.dumps` of a float list —
represented here by the list it serializes, constructor `ns`) or a list
of floats (the absolute-coordinates lists). -/
inductive PyVal where
  | s (v : List Char)
  | ns (v : List ℚ)
deriving DecidableEq, Repr

/-- The `ActionInputs` dataclass of `views.py`: all fields default to
`None`. -/
structure ActionInputs where
  content : Option PyVal := none
  start_box : Option PyVal := none
  end_box : Option PyVal := none
  key : Option PyVal := none
  hotkey : Option PyVal := none
  direction : Option PyVal := none
  start_coords : Option PyVal := none
  end_coords : Option PyVal := none
deriving DecidableEq, Repr

/-- The `PredictionParsed` dataclass of `views.py`. -/
structure PredictionParsed where
  action_inputs : ActionInputs
  action_type : List Char
  thought : List Char
  reflection : Option (List Char)
deriving DecidableEq, Repr

/-- The `screen_context` dict: optional `width` / `height` entries. -/
structure ScreenCtx where
  width : Option ℚ
  height : Option ℚ
deriving DecidableEq, Repr

/-- Truthiness of `screen_context and screen_context.get('width') and
screen_context.get('height')`: the dict is present and both entries are
present and nonzero (an absent or empty dict makes the whole test
falsy, as does a missing or zero entry). -/
def ctxTruthy : Option ScreenCtx → Bool
  | none => false
  | some c =>
    (match c.width with | some w => w ≠ 0 | none => false) &&
    (match c.height with | some h => h ≠ 0 | none => false)

/-- Result of `parse_action`: a function name and the `kwargs` dict in
insertion order. -/
structure FnCall where
  fn : List Char
  args : List (List Char × List Char)
deriving DecidableEq, Repr

/-- Greedy run `(\s|\\n)*` of the two quirk-stripping regexes in
`parse_action_args_pair`: drops whitespace characters and literal
backslash-n two-character sequences. -/
def dropWsRun : ℕ → List Char → List Char
  | 0, s => s
  | fuel + 1, s =>
    match s with
    | [] => []
    | c :: rest =>
      if isPyWS c then dropWsRun fuel rest
      else if c = '\\' then
        match rest with
        | 'n' :: rest2 => dropWsRun fuel rest2
        | _ => s
      else s

/-- First quirk strip of `parse_action_args_pair`:
`re.sub` with pattern quote, `=`, quote, then the whitespace run. -/
def stripQuirk1 : ℕ → List Char → List Char
  | 0, s => s
  | fuel + 1, s =>
    match s with
    | [] => []
    | c1 :: rest =>
      match rest with
      | '=' :: c2 :: rest2 =>
        if isQuoteCh c1 && isQuoteCh c2 then
          stripQuirk1 fuel (dropWsRun (rest2.length + 1) rest2)
        else c1 :: stripQuirk1 fuel rest
      | _ => c1 :: stripQuirk1 fuel rest

/-- Second quirk strip of `parse_action_args_pair`:
`re.sub` with pattern backslash, quote, `=`, backslash, quote, then the
whitespace run. -/
def stripQuirk2 : ℕ → List Char → List Char
  | 0, s => s
  | fuel + 1, s =>
    match s with
    | '\\' :: q1 :: '=' :: '\\' :: q2 :: rest2 =>
      if isQuoteCh q1 && isQuoteCh q2 then
        stripQuirk2 fuel (dropWsRun (rest2.length + 1) rest2)
      else '\\' :: stripQuirk2 fuel (q1 :: '=' :: '\\' :: q2 :: rest2)
    | [] => []
    | c :: rest => c :: stripQuirk2 fuel rest

/-- Index of the last `)` in a newline-free segment, for the greedy
backtracking of the alternative `(\(.*\))`. -/
def lastParenIdx (line : List Char) : Option ℕ :=
  (line.reverse.findIdx? (· = ')')).map (fun j => line.length - 1 - j)

/-- Fourth value alternative `([^,\s]+)`: a maximal nonempty run of
characters that are neither commas nor whitespace. -/
def tryValueBare (rest : List Char) : Option (List Char × Bool × ℕ) :=
  let run := rest.takeWhile (fun c => !(c = ',' || isPyWS c))
  if run.isEmpty then none else some (run, false, run.length)

/-- Value alternatives of the tokenizer regex, tried in order:
single-quoted, double-quoted, parenthesized group, bare run. Returns
the captured value, whether the match was a quoted empty value (all
value groups empty, which makes the argument loop raise
`StopIteration`), and the number of characters consumed. -/
def tryValue (rest : List Char) : Option (List Char × Bool × ℕ) :=
  match rest with
  | [] => none
  | c :: r =>
    if c = qS then
      let content := r.takeWhile (· ≠ qS)
      match r.drop content.length with
      | _ :: _ => some (content, content.isEmpty, content.length + 2)
      | [] => tryValueBare rest
    else if c = '"' then
      let content := r.takeWhile (· ≠ '"')
      match r.drop content.length with
      | _ :: _ => some (content, content.isEmpty, content.length + 2)
      | [] => tryValueBare rest
    else if c = '(' then
      let line := r.takeWhile (· ≠ '\n')
      match lastParenIdx line with
      | some k => some ('(' :: line.take (k + 1), false, k + 2)
      | none => tryValueBare rest
    else tryValueBare rest

/-- Attempt of the full tokenizer pattern at the current position:
`(\w+)=` followed by a value alternative. -/
def tryPairAt (s : List Char) : Option (List Char × List Char × Bool × ℕ) :=
  let key := s.takeWhile isWordChar
  if key.isEmpty then none
  else
    match s.drop key.length with
    | '=' :: rest =>
      match tryValue rest with
      | some (v, emptyQ, vlen) => some (key, v, emptyQ, key.length + 1 + vlen)
      | none => none
    | _ => none

/-- The `re.findall` scan of the tokenizer followed by the emission loop:
each match emits `key=value`; a quoted empty value raises
`StopIteration` (modelled as `Except.error`). -/
def scanPairs : ℕ → List Char → Except Unit (List (List Char))
  | 0, _ => .ok []
  | _ + 1, [] => .ok []
  | fuel + 1, s@(_ :: rest) =>
    match tryPairAt s with
    | some (k, v, emptyQ, len) =>
      if emptyQ then .error ()
      else
        match scanPairs fuel (s.drop len) with
        | .error e => .error e
        | .ok tail => .ok ((k ++ '=' :: v) :: tail)
    | none => scanPairs fuel rest

/-- The Argument Tokenizer `parse_action_args_pair`: two quirk strips,
then the pair scan. -/
def parse_action_args_pair (args : List Char) : Except Unit (List (List Char)) :=
  let a1 := stripQuirk1 (args.length + 1) args
  let a2 := stripQuirk2 (a1.length + 1) a1
  scanPairs (a2.length + 1) a2

/-- The outer shape regex `^(\w+)\((.*)\)$` via `re.match`: a nonempty
word-character run, `(`, a newline-free interior (`.` does not match
newlines), and a final `)` (the greedy `.*` backtracks to the last
closing parenthesis, which `$` forces to end the string). -/
def funcMatch (s : List Char) : Option (List Char × List Char) :=
  let name := s.takeWhile isWordChar
  if name.isEmpty then none
  else
    match s.drop name.length with
    | '(' :: rest =>
      match rest.getLast? with
      | some ')' =>
        let mid := rest.dropLast
        if mid.contains '\n' then none else some (name, mid)
      | _ => none
    | _ => none

/-- Leading and trailing quote characters removed (Python
`value.strip` on the two quote characters strips every leading and
trailing quote, not a single layer). -/
def dropQ (s : List Char) : List Char := s.dropWhile isQuoteCh

/-- Trailing quote strip. -/
def rstripQ (s : List Char) : List Char := (dropQ s.reverse).reverse

/-- Python `value.strip` over the quote-character set. -/
def stripCharsQ (s : List Char) : List Char := rstripQ (dropQ s)

/-- Literal `<bbox>` marker. -/
def bboxOpen : List Char := "<bbox>".data

/-- Literal `</bbox>` marker. -/
def bboxClose : List Char := "</bbox>".data

/-- The `<bbox>` rewrite in `parse_action`: strip the tags, replace
spaces with commas, wrap in parentheses. -/
def procValue (v : List Char) : List Char :=
  if containsSub bboxOpen v then
    let v1 := replaceSub bboxOpen [] v
    let v2 := replaceSub bboxClose [] v1
    let v3 := replaceSub [' '] [','] v2
    '(' :: v3 ++ [')']
  else v

/-- Python dict assignment `kwargs[key] = value`: replaces the value of
an existing key in place, otherwise appends. -/
def upsert : List (List Char × List Char) → List Char → List Char →
    List (List Char × List Char)
  | [], k, v => [(k, v)]
  | (k0, v0) :: rest, k, v =>
    if k0 = k then (k0, v) :: rest else (k0, v0) :: upsert rest k v

/-- Argument pair loop of `parse_action`: split each `key=value` pair
at the first `=`, skip empty keys, trim, strip quotes, rewrite bbox
tags, and insert into `kwargs`. -/
def buildKwargs (pairs : List (List Char)) : List (List Char × List Char) :=
  pairs.foldl
    (fun kw pair =>
      let parts := splitFirstEq pair
      if parts.1.isEmpty then kw
      else
        let key := stripL parts.1
        let v0 := stripL (parts.2.getD [])
        upsert kw key (procValue (stripCharsQ v0)))
    []

/-- The Action Parser `parse_action`: match the function-call shape,
tokenize the interior, build the argument mapping; any exception
(shape mismatch `ValueError`, tokenizer `StopIteration`) is caught and
yields `none`. -/
def parse_action (action_str : List Char) : Option FnCall :=
  let s := stripL action_str
  match funcMatch s with
  | none => none
  | some (name, args_str) =>
    if (stripL args_str).isEmpty then some ⟨name, []⟩
    else
      match parse_action_args_pair args_str with
      | .error _ => none
      | .ok pairs => some ⟨name, buildKwargs pairs⟩

/-- Natural number denoted by a digit run. -/
def digitsVal (ds : List Char) : ℕ :=
  ds.foldl (fun a c => a * 10 + (c.toNat - 48)) 0

/-- Powers of ten in `ℚ`. -/
def pow10 : ℕ → ℚ
  | 0 => 1
  | n + 1 => 10 * pow10 n

/-- Python `float(s)` on the finite decimal and exponent forms the
model emits: optional surrounding whitespace, optional sign, digits
with an optional fractional part (at least one digit overall), and an
optional exponent. Exotic accepted spellings (`inf`, `nan`, digit
underscores) are treated as failures; they do not occur in the inputs
this development evaluates. `none` models the `ValueError` raise. -/
def pyFloatQ? (s : List Char) : Option ℚ :=
  let t := stripL s
  let sgn : ℚ × List Char :=
    match t with
    | '+' :: r => (1, r)
    | '-' :: r => (-1, r)
    | _ => (1, t)
  let ip := sgn.2.takeWhile Char.isDigit
  let t2 := sgn.2.drop ip.length
  let frac : Option (List Char) × List Char :=
    match t2 with
    | '.' :: r => (some (r.takeWhile Char.isDigit),
                   r.drop (r.takeWhile Char.isDigit).length)
    | _ => (none, t2)
  let fp := (frac.1).getD []
  if ip.isEmpty && fp.isEmpty then none
  else
    let mant : ℚ := sgn.1 * ((digitsVal ip : ℚ) + (digitsVal fp : ℚ) / pow10 fp.length)
    match frac.2 with
    | [] => some mant
    | e :: r =>
      if e = 'e' || e = 'E' then
        let esgn : Bool × List Char :=
          match r with
          | '+' :: rr => (true, rr)
          | '-' :: rr => (false, rr)
          | _ => (true, r)
        let ed := esgn.2.takeWhile Char.isDigit
        if ed.isEmpty || !(esgn.2.drop ed.length).isEmpty then none
        else some (if esgn.1 then mant * pow10 (digitsVal ed)
                   else mant / pow10 (digitsVal ed))
      else none

/-- Python `round` on a float holding an exact value: round half to
even. -/
def pyRound (q : ℚ) : ℤ :=
  let f : ℤ := Int.fdiv q.num q.den
  let r : ℚ := q - (f : ℚ)
  if r < 1/2 then f
  else if 1/2 < r then f + 1
  else if f % 2 = 0 then f else f + 1

/-- The numeric components of a region descriptor: bracket and
parenthesis characters removed, split on commas, empty pieces
dropped. -/
def boxNumbers (trimmed : List Char) : List (List Char) :=
  (splitOnSub [','] (trimmed.filter
    (fun c => !(c = '(' || c = ')' || c = '[' || c = ']')))).filter
    (fun n => !n.isEmpty)

/-- The normalization comprehension
`[float(num) / factors[idx % 2] for idx, num in enumerate(numbers)]`:
a `ValueError` from `float` or a `ZeroDivisionError` from a zero factor
escapes. -/
def normNumbers (fw fh : ℚ) : ℕ → List (List Char) → Except PyErr (List ℚ)
  | _, [] => .ok []
  | idx, n :: rest =>
    match pyFloatQ? n with
    | none => .error .valueError
    | some q =>
      let f := if idx % 2 = 0 then fw else fh
      if f = 0 then .error .zeroDivisionError
      else
        match normNumbers fw fh (idx + 1) rest with
        | .error e => .error e
        | .ok tail => .ok (q / f :: tail)

/-- The degenerate-point expansion: a 2-element list is duplicated into
a 4-element rectangle; everything else is unchanged. -/
def extendTo4 : List ℚ → List ℚ
  | [a, b] => [a, b, a, b]
  | l => l

/-- Python `scale_factor or 1`: `None` and `0` both give `1`. -/
def pyScale : Option ℚ → ℚ
  | none => 1
  | some q => if q = 0 then 1 else q

/-- The absolute pixel point: midpoint of the two corners, scaled by
the screen dimension, rounded to normalization-factor granularity, and
multiplied by the scale factor. -/
def absPoint (x1 y1 x2 y2 w h wf hf sf : ℚ) : List ℚ :=
  [((pyRound ((x1 + x2) / 2 * w * wf) : ℚ) / wf) * sf,
   ((pyRound ((y1 + y2) / 2 * h * hf) : ℚ) / hf) * sf]

/-- Field names assignable on `ActionInputs`. -/
def cContent : List Char := "content".data

/-- Field name `start_box`. -/
def cStartBox : List Char := "start_box".data

/-- Field name `end_box`. -/
def cEndBox : List Char := "end_box".data

/-- Field name `key`. -/
def cKey : List Char := "key".data

/-- Field name `hotkey`. -/
def cHotkey : List Char := "hotkey".data

/-- Field name `direction`. -/
def cDirection : List Char := "direction".data

/-- Field name `start_coords`. -/
def cStartCoords : List Char := "start_coords".data

/-- Field name `end_coords`. -/
def cEndCoords : List Char := "end_coords".data

/-- Python `setattr(action_inputs, name, v)`: assigns the named
dataclass field; a name outside the declared fields creates a dynamic
attribute invisible to every consumer of the data model, modelled as a
no-op. -/
def setattrAI (ai : ActionInputs) (name : List Char) (v : PyVal) : ActionInputs :=
  if name = cContent then { ai with content := some v }
  else if name = cStartBox then { ai with start_box := some v }
  else if name = cEndBox then { ai with end_box := some v }
  else if name = cKey then { ai with key := some v }
  else if name = cHotkey then { ai with hotkey := some v }
  else if name = cDirection then { ai with direction := some v }
  else if name = cStartCoords then { ai with start_coords := some v }
  else if name = cEndCoords then { ai with end_coords := some v }
  else ai

/-- Region-argument handling of `parse_action_vlm` (lines 60-89):
normalize the numeric components, store the serialized rectangle on
the region field, and, when the screen-context test is truthy, compute
and store the absolute point. The `isinstance` check on the four
coordinates always succeeds here because `float` already raised on any
non-numeric component, so the `[]` fallback branch of the source is
unreachable. Reading `float_numbers[0]` and `[1]` raises `IndexError`
when fewer than two components were given. -/
def applyBox (fw fh : ℚ) (sc : Option ScreenCtx) (scale : Option ℚ)
    (pname trimmed : List Char) (ai : ActionInputs) : Except PyErr ActionInputs :=
  match normNumbers fw fh 0 (boxNumbers trimmed) with
  | .error e => .error e
  | .ok floats0 =>
    let floats := extendTo4 floats0
    let ai1 := setattrAI ai (stripL pname) (.ns floats)
    if ctxTruthy sc then
      match floats with
      | x1 :: y1 :: rest =>
        let x2 := (rest.get? 0).getD x1
        let y2 := (rest.get? 1).getD y1
        match sc with
        | some ctx =>
          match ctx.width, ctx.height with
          | some w, some h =>
            let bkey := if containsSub cStartBox pname then cStartCoords else cEndCoords
            .ok (setattrAI ai1 bkey (.ns (absPoint x1 y1 x2 y2 w h fw fh (pyScale scale))))
          | _, _ => .ok ai1
        | none => .ok ai1
      | _ => .error .indexError
    else .ok ai1

/-- Argument loop of `parse_action_vlm` (lines 54-89): skip falsy
values, assign the trimmed value, and run the region handling for
argument names containing `start_box` or `end_box`. -/
def procArgs (fw fh : ℚ) (sc : Option ScreenCtx) (scale : Option ℚ) :
    List (List Char × List Char) → ActionInputs → Except PyErr ActionInputs
  | [], ai => .ok ai
  | (pname, pval) :: rest, ai =>
    if pval.isEmpty then procArgs fw fh sc scale rest ai
    else
      let trimmed := stripL pval
      let ai1 := setattrAI ai (stripL pname) (.s trimmed)
      if containsSub cStartBox pname || containsSub cEndBox pname then
        match applyBox fw fh sc scale pname trimmed ai1 with
        | .error e => .error e
        | .ok ai2 => procArgs fw fh sc scale rest ai2
      else procArgs fw fh sc scale rest ai1

/-- Marker `Thought:` of the `startswith` test. -/
def mkThought8 : List Char := "Thought:".data

/-- Marker `Thought: ` of the thought regex. -/
def mkThought9 : List Char := "Thought: ".data

/-- Marker `Reflection:` of the `startswith` test. -/
def mkRefl11 : List Char := "Reflection:".data

/-- Marker `Reflection: ` of the reflection regex. -/
def mkRefl12 : List Char := "Reflection: ".data

/-- Marker `Action_Summary:` of the `startswith` test. -/
def mkSumm15 : List Char := "Action_Summary:".data

/-- Marker `Action_Summary: ` of the summary regexes. -/
def mkSumm16 : List Char := "Action_Summary: ".data

/-- Marker `Action:`. -/
def mkAct : List Char := "Action:".data

/-- The lookahead `(?=\s*Action:|$)`: the position is the end of the
text, or is followed by optional whitespace and `Action:` (the text
these searches run on is stripped, so `$` matching before a final
newline cannot arise). -/
def capStop (rem : List Char) : Bool :=
  rem.isEmpty || startsWithL mkAct (rem.dropWhile isPyWS)

/-- Lazy capture `([\s\S]+?)` up to the lookahead: at least one
character, extended one character at a time until the lookahead
matches. -/
def lazyCapGo : ℕ → List Char → List Char → Option (List Char)
  | 0, _, _ => none
  | fuel + 1, acc, rem =>
    if capStop rem then some acc.reverse
    else
      match rem with
      | [] => none
      | c :: rem2 => lazyCapGo fuel (c :: acc) rem2

/-- Lazy capture requiring at least one character. -/
def lazyCapT : List Char → Option (List Char)
  | [] => none
  | c :: rem => lazyCapGo (rem.length + 1) [c] rem

/-- Lazy capture `(.+?)` of the summary regex: as above, but `.` does
not match newlines, so hitting a newline before the lookahead fails
the attempt. -/
def lazyCapLineGo : ℕ → List Char → List Char → Option (List Char)
  | 0, _, _ => none
  | fuel + 1, acc, rem =>
    if capStop rem then some acc.reverse
    else
      match rem with
      | [] => none
      | c :: rem2 => if c = '\n' then none else lazyCapLineGo fuel (c :: acc) rem2

/-- Newline-free lazy capture requiring at least one character. -/
def lazyCapLine : List Char → Option (List Char)
  | [] => none
  | c :: rem => if c = '\n' then none else lazyCapLineGo (rem.length + 1) [c] rem

/-- The `re.search` scan for the thought regex
`Thought: ([\s\S]+?)(?=\s*Action:|$)`. -/
def searchThoughtGo : ℕ → List Char → Option (List Char)
  | 0, _ => none
  | _ + 1, [] => none
  | fuel + 1, s@(_ :: rest) =>
    if startsWithL mkThought9 s then
      match lazyCapT (s.drop 9) with
      | some cap => some (stripL cap)
      | none => searchThoughtGo fuel rest
    else searchThoughtGo fuel rest

/-- Thought extraction: `group(1).strip()` when the pattern matches. -/
def searchThought (t : List Char) : Option (List Char) :=
  searchThoughtGo (t.length + 1) t

/-- Group-1 backtracking of the reflection regex: the first group
extends lazily until `Action_Summary: ` follows and the second lazy
group can match after it. -/
def reflCapGo : ℕ → List Char → List Char → Option (List Char × List Char)
  | 0, _, _ => none
  | fuel + 1, acc, rem =>
    if startsWithL mkSumm16 rem then
      match lazyCapT (rem.drop 16) with
      | some cap2 => some (acc.reverse, cap2)
      | none =>
        match rem with
        | [] => none
        | c :: rem2 => reflCapGo fuel (c :: acc) rem2
    else
      match rem with
      | [] => none
      | c :: rem2 => reflCapGo fuel (c :: acc) rem2

/-- The `re.search` scan for the reflection regex
`Reflection: ([\s\S]+?)Action_Summary: ([\s\S]+?)(?=\s*Action:|$)`;
the summary segment becomes the thought and the first segment the
reflection, both stripped. -/
def searchReflGo : ℕ → List Char → Option (List Char) × Option (List Char)
  | 0, _ => (none, none)
  | _ + 1, [] => (none, none)
  | fuel + 1, s@(_ :: rest) =>
    if startsWithL mkRefl12 s then
      match s.drop 12 with
      | [] => searchReflGo fuel rest
      | c :: rem =>
        match reflCapGo (rem.length + 1) [c] rem with
        | some (g1, g2) => (some (stripL g1), some (stripL g2))
        | none => searchReflGo fuel rest
    else searchReflGo fuel rest

/-- Reflection extraction: optional reflection and thought. -/
def searchRefl (t : List Char) : Option (List Char) × Option (List Char) :=
  searchReflGo (t.length + 1) t

/-- The `re.search` scan for the summary regex
`Action_Summary: (.+?)(?=\s*Action:|$)`. -/
def searchSummGo : ℕ → List Char → Option (List Char)
  | 0, _ => none
  | _ + 1, [] => none
  | fuel + 1, s@(_ :: rest) =>
    if startsWithL mkSumm16 s then
      match lazyCapLine (s.drop 16) with
      | some cap => some (stripL cap)
      | none => searchSummGo fuel rest
    else searchSummGo fuel rest

/-- Summary extraction. -/
def searchSumm (t : List Char) : Option (List Char) :=
  searchSummGo (t.length + 1) t

/-- Reflection and thought extraction of `parse_action_vlm`
(lines 17-34), on the stripped text: three mutually exclusive leading
markers. -/
def extractRT (t : List Char) : Option (List Char) × Option (List Char) :=
  if startsWithL mkThought8 t then (none, searchThought t)
  else if startsWithL mkRefl11 t then searchRefl t
  else if startsWithL mkSumm15 t then (none, searchSumm t)
  else (none, none)

/-- Action portion (lines 36-40): the whole text when no `Action:`
marker occurs, otherwise everything after the last marker. -/
def actionPortion (t : List Char) : List Char :=
  if containsSub mkAct t then (splitOnSub mkAct t).getLastD [] else t

/-- The raw per-action strings: the action portion split on blank
lines. -/
def vlmChunks (t : List Char) : List (List Char) :=
  splitOnSub ['\n', '\n'] (actionPortion t)

/-- One chunk of the per-action loop (lines 45-93): newlines escaped,
left-stripped, parsed; a failed parse yields an empty action type and
default inputs; a successful parse runs the argument loop. -/
def processChunk (fw fh : ℚ) (sc : Option ScreenCtx) (scale : Option ℚ)
    (refl th : Option (List Char)) (raw : List Char) :
    Except PyErr PredictionParsed :=
  match parse_action (lstripL (replaceSub ['\n'] ['\\', 'n'] raw)) with
  | none => .ok ⟨{}, [], th.getD [], refl⟩
  | some fc =>
    match procArgs fw fh sc scale fc.args {} with
    | .error e => .error e
    | .ok ai => .ok ⟨ai, fc.fn, th.getD [], refl⟩

/-- Sequencing of the per-action loop in the `Except` monad: the first
raised exception aborts the whole call. -/
def mapExcept (f : α → Except ε β) : List α → Except ε (List β)
  | [] => .ok []
  | x :: xs =>
    match f x with
    | .error e => .error e
    | .ok y =>
      match mapExcept f xs with
      | .error e => .error e
      | .ok ys => .ok (y :: ys)

/-- The Prediction Parser `parse_action_vlm`. -/
def parse_action_vlm (text : List Char) (factors : ℚ × ℚ)
    (sc : Option ScreenCtx) (scale : Option ℚ) :
    Except PyErr (List PredictionParsed) :=
  let t := stripL text
  let rt := extractRT t
  mapExcept (processChunk factors.1 factors.2 sc scale rt.1 rt.2) (vlmChunks t)

/-- A point of the `CoordinateSet` consumed by `get_element_by_bbox`. -/
structure CPoint where
  x : ℚ
  y : ℚ
deriving DecidableEq, Repr

/-- The rectangle data of `DOMElementNode.viewport_coordinates` that
`get_element_by_bbox` reads: three corners and the width and height. -/
structure CoordSet where
  top_left : CPoint
  top_right : CPoint
  bottom_left : CPoint
  width : ℚ
  height : ℚ
deriving DecidableEq, Repr

/-- A candidate interactive element from `state.selector_map.values()`:
an identifier (to distinguish candidates) and an optional viewport
rectangle. -/
structure DOMElem where
  id : ℕ
  viewport_coordinates : Option CoordSet
deriving DecidableEq, Repr

/-- The membership test of the matching loop (lines 223-228): elements
without viewport coordinates are skipped; otherwise the query box's
`bbox[0]` must lie within the element's horizontal span and `bbox[1]`
within its vertical span (the source never reads `bbox[2]` or
`bbox[3]`). -/
def elMatches (bbox : ℚ × ℚ × ℚ × ℚ) (el : DOMElem) : Bool :=
  match el.viewport_coordinates with
  | none => false
  | some c =>
    decide (c.top_left.x ≤ bbox.1) && decide (bbox.1 ≤ c.top_right.x) &&
    decide (c.top_left.y ≤ bbox.2.1) && decide (bbox.2.1 ≤ c.bottom_left.y)

/-- The product `el.viewport_coordinates.width * el.viewport_coordinates.height`;
the `0` default is unreachable because the area is only read for
matched elements, which have coordinates. -/
def areaOf (el : DOMElem) : ℚ :=
  match el.viewport_coordinates with
  | some c => c.width * c.height
  | none => 0

/-- The smallest-area selection loop (lines 230-236): strict
comparison against the running minimum, so the first element attaining
the minimum area is kept. -/
def pickSmallest : Option DOMElem → List DOMElem → Option DOMElem
  | acc, [] => acc
  | none, el :: rest => pickSmallest (some el) rest
  | some b, el :: rest =>
    if areaOf el < areaOf b then pickSmallest (some el) rest
    else pickSmallest (some b) rest

/-- The Element Resolver `get_element_by_bbox`: candidates are the
elements passing the matching test, and the smallest-area one (first
on ties) is returned, `none` when there is no match. -/
def get_element_by_bbox (bbox : ℚ × ℚ × ℚ × ℚ) (els : List DOMElem) :
    Option DOMElem :=
  pickSmallest none (els.filter (elMatches bbox))

/-- Running minimum of the areas of a list of elements. -/
def minAreaAux (a : ℚ) : List DOMElem → ℚ
  | [] => a
  | e :: rest => minAreaAux (min a (areaOf e)) rest

/-- Reference selection rule written from the amended claim: among the
elements passing the matching test, the first one whose area equals
the minimum area. -/
def resolveMinFirst (bbox : ℚ × ℚ × ℚ × ℚ) (els : List DOMElem) :
    Option DOMElem :=
  match els.filter (elMatches bbox) with
  | [] => none
  | e :: rest =>
    (e :: rest).find? (fun x => decide (areaOf x = minAreaAux (areaOf e) rest))

/-- Modelled from the spec: the containment rule the specification
states for the Element Resolver — the query box's left and right edges
fall within the element's horizontal span and its top and bottom edges
within the element's vertical span. -/
def specFullyContains (bbox : ℚ × ℚ × ℚ × ℚ) (el : DOMElem) : Bool :=
  match el.viewport_coordinates with
  | none => false
  | some c =>
    decide (c.top_left.x ≤ bbox.1) && decide (bbox.2.2.1 ≤ c.top_right.x) &&
    decide (c.top_left.y ≤ bbox.2.1) && decide (bbox.2.2.2 ≤ c.bottom_left.y)

/-- Concrete claim inputs: `click(start_box='(500,500)')`. -/
def exClick500 : List Char :=
  "click(start_box=".data ++ qS :: "(500,500)".data ++ [qS, ')']

/-- Concrete claim inputs: `click(start_box='(a,b)')`. -/
def exBadBox : List Char :=
  "click(start_box=".data ++ qS :: "(a,b)".data ++ [qS, ')']

/-- Concrete claim inputs: a two-action response with a leading
thought. -/
def exTwoActions : List Char :=
  "Thought: do X\nAction: click(start_box=".data ++
  qS :: "(100,100)".data ++ [qS, ')'] ++ "\n\ntype(content=hello)".data

/-- Concrete claim inputs: `click(content='')`. -/
def exEmptyContent : List Char :=
  "click(content=".data ++ [qS, qS, ')']

/-- Concrete claim inputs: `click(key="'hello'")`. -/
def exNestedQuotes : List Char :=
  "click(key=".data ++ '"' :: qS :: "hello".data ++ [qS, '"', ')']

/-- Concrete claim inputs: element spanning x 0-15, y 0-15 (area 225);
it contains the point (10, 10) but not the box (10,10)-(20,20). -/
def elemA : DOMElem :=
  ⟨1, some ⟨⟨0, 0⟩, ⟨15, 0⟩, ⟨0, 15⟩, 15, 15⟩⟩

/-- Concrete claim inputs: element spanning x 0-100, y 0-100
(area 10000); it fully contains the box (10,10)-(20,20). -/
def elemB : DOMElem :=
  ⟨2, some ⟨⟨0, 0⟩, ⟨100, 0⟩, ⟨0, 100⟩, 100, 100⟩⟩

/-- Concrete claim inputs: an element with no viewport rectangle. -/
def elemNoCoords : DOMElem := ⟨3, none⟩

end UITars




namespace UITars

/-! ### Helper lemmas -/

theorem mapExcept_cons_ok {f : α → Except ε β} {x : α} {xs : List α}
    {l : List β} (h : mapExcept f (x :: xs) = .ok l) :
    ∃ y ys, f x = .ok y ∧ mapExcept f xs = .ok ys ∧ l = y :: ys := by
  unfold mapExcept at h
  cases hf : f x with
  | error e => rw [hf] at h; exact absurd h (by simp)
  | ok y =>
    rw [hf] at h
    cases hm : mapExcept f xs with
    | error e => rw [hm] at h; exact absurd h (by simp)
    | ok ys =>
      rw [hm] at h
      exact ⟨y, ys, rfl, rfl, by injection h with h2; exact h2.symm⟩

theorem mapExcept_ok_mem {f : α → Except ε β} :
    ∀ {xs : List α} {l : List β}, mapExcept f xs = .ok l →
    ∀ r ∈ l, ∃ x, x ∈ xs ∧ f x = .ok r := by
  intro xs
  induction xs with
  | nil =>
    intro l h r hr
    unfold mapExcept at h
    injection h with h
    subst h
    simp at hr
  | cons x xs ih =>
    intro l h r hr
    obtain ⟨y, ys, hf, hm, rfl⟩ := mapExcept_cons_ok h
    rcases List.mem_cons.mp hr with rfl | hr2
    · exact ⟨x, List.mem_cons_self x xs, hf⟩
    · obtain ⟨x', hx', hfx'⟩ := ih hm r hr2
      exact ⟨x', List.mem_cons_of_mem x hx', hfx'⟩

theorem mapExcept_ok_length {f : α → Except ε β} :
    ∀ {xs : List α} {l : List β}, mapExcept f xs = .ok l →
    l.length = xs.length := by
  intro xs
  induction xs with
  | nil =>
    intro l h
    unfold mapExcept at h
    injection h with h
    subst h
    rfl
  | cons x xs ih =>
    intro l h
    obtain ⟨y, ys, _, hm, rfl⟩ := mapExcept_cons_ok h
    simp [ih hm]

theorem mapExcept_ok_getElem? {f : α → Except ε β} :
    ∀ {xs : List α} {l : List β}, mapExcept f xs = .ok l →
    ∀ (i : ℕ) (x : α) (r : β), xs[i]? = some x → l[i]? = some r → f x = .ok r := by
  intro xs
  induction xs with
  | nil => intro l _ i x r hx _; simp at hx
  | cons x0 xs ih =>
    intro l h i x r hx hr
    obtain ⟨y, ys, hf, hm, rfl⟩ := mapExcept_cons_ok h
    cases i with
    | zero =>
      simp only [List.getElem?_cons_zero] at hx hr
      injection hx with hx
      injection hr with hr
      subst hx; subst hr
      exact hf
    | succ j =>
      simp only [List.getElem?_cons_succ] at hx hr
      exact ih hm j x r hx hr

theorem pickSmallest_mem :
    ∀ {m : List DOMElem} {acc : Option DOMElem} {e : DOMElem},
    pickSmallest acc m = some e → acc = some e ∨ e ∈ m := by
  intro m
  induction m with
  | nil => intro acc e h; simp only [pickSmallest] at h; exact Or.inl h
  | cons el rest ih =>
    intro acc e h
    cases acc with
    | none =>
      rcases ih h with h2 | h2
      · injection h2 with h2; exact Or.inr (h2 ▸ List.mem_cons_self el rest)
      · exact Or.inr (List.mem_cons_of_mem el h2)
    | some b =>
      by_cases hlt : areaOf el < areaOf b
      · rw [show pickSmallest (some b) (el :: rest) =
            pickSmallest (some el) rest by simp [pickSmallest, hlt]] at h
        rcases ih h with h2 | h2
        · injection h2 with h2; exact Or.inr (h2 ▸ List.mem_cons_self el rest)
        · exact Or.inr (List.mem_cons_of_mem el h2)
      · rw [show pickSmallest (some b) (el :: rest) =
            pickSmallest (some b) rest by simp [pickSmallest, hlt]] at h
        rcases ih h with h2 | h2
        · exact Or.inl h2
        · exact Or.inr (List.mem_cons_of_mem el h2)

theorem minAreaAux_le : ∀ (l : List DOMElem) (a : ℚ), minAreaAux a l ≤ a := by
  intro l
  induction l with
  | nil => intro a; exact le_refl a
  | cons e rest ih =>
    intro a
    calc minAreaAux a (e :: rest) = minAreaAux (min a (areaOf e)) rest := rfl
      _ ≤ min a (areaOf e) := ih _
      _ ≤ a := min_le_left _ _

theorem pickSmallest_eq_findMin :
    ∀ (m : List DOMElem) (b : DOMElem),
    pickSmallest (some b) m =
      (b :: m).find? (fun x => decide (areaOf x = minAreaAux (areaOf b) m)) := by
  intro m
  induction m with
  | nil =>
    intro b
    simp [pickSmallest, minAreaAux, List.find?]
  | cons el rest ih =>
    intro b
    by_cases hlt : areaOf el < areaOf b
    · have hmin : minAreaAux (areaOf b) (el :: rest) = minAreaAux (areaOf el) rest := by
        simp [minAreaAux, min_eq_right hlt.le]
      have hpickb : pickSmallest (some b) (el :: rest) = pickSmallest (some el) rest := by
        simp [pickSmallest, hlt]
      have hbne : ¬ (areaOf b = minAreaAux (areaOf el) rest) := by
        intro heq
        have h1 : minAreaAux (areaOf el) rest ≤ areaOf el := minAreaAux_le _ _
        rw [← heq] at h1
        exact absurd (lt_of_lt_of_le hlt h1) (lt_irrefl _)
      have hskip :
          List.find? (fun x => decide (areaOf x = minAreaAux (areaOf el) rest))
            (b :: el :: rest) =
          List.find? (fun x => decide (areaOf x = minAreaAux (areaOf el) rest))
            (el :: rest) :=
        List.find?_cons_of_neg _ (by simpa using hbne)
      rw [hpickb, ih el, hmin, hskip]
    · have hble : areaOf b ≤ areaOf el := not_lt.mp hlt
      have hmin : minAreaAux (areaOf b) (el :: rest) = minAreaAux (areaOf b) rest := by
        simp [minAreaAux, min_eq_left hble]
      have hpickb : pickSmallest (some b) (el :: rest) = pickSmallest (some b) rest := by
        simp [pickSmallest, hlt]
      rw [hpickb, ih b, hmin]
      by_cases hb : areaOf b = minAreaAux (areaOf b) rest
      · have hposl :
            List.find? (fun x => decide (areaOf x = minAreaAux (areaOf b) rest))
              (b :: rest) = some b :=
          List.find?_cons_of_pos _ (by simpa using hb)
        have hposr :
            List.find? (fun x => decide (areaOf x = minAreaAux (areaOf b) rest))
              (b :: el :: rest) = some b :=
          List.find?_cons_of_pos _ (by simpa using hb)
        rw [hposl, hposr]
      · have hel : ¬ (areaOf el = minAreaAux (areaOf b) rest) := by
          intro heq
          have h1 : minAreaAux (areaOf b) rest ≤ areaOf b := minAreaAux_le _ _
          have h2 : areaOf b ≤ minAreaAux (areaOf b) rest := heq ▸ hble
          exact hb (le_antisymm h2 h1)
        have hl :
            List.find? (fun x => decide (areaOf x = minAreaAux (areaOf b) rest))
              (b :: rest) =
            List.find? (fun x => decide (areaOf x = minAreaAux (areaOf b) rest))
              rest :=
          List.find?_cons_of_neg _ (by simpa using hb)
        have hr1 :
            List.find? (fun x => decide (areaOf x = minAreaAux (areaOf b) rest))
              (b :: el :: rest) =
            List.find? (fun x => decide (areaOf x = minAreaAux (areaOf b) rest))
              (el :: rest) :=
          List.find?_cons_of_neg _ (by simpa using hb)
        have hr2 :
            List.find? (fun x => decide (areaOf x = minAreaAux (areaOf b) rest))
              (el :: rest) =
            List.find? (fun x => decide (areaOf x = minAreaAux (areaOf b) rest))
              rest :=
          List.find?_cons_of_neg _ (by simpa using hel)
        rw [hl, hr1, hr2]

end UITars
namespace UITars

theorem wordChar_not_ws {c : Char} (h : isWordChar c = true) : isPyWS c = false := by
  unfold isWordChar at h
  unfold isPyWS
  simp only [Bool.or_eq_true, Bool.and_eq_true, decide_eq_true_eq] at h
  simp only [Bool.or_eq_false_iff, decide_eq_false_iff_not]
  omega

theorem lstripL_cons {c : Char} (t : List Char) (h : isPyWS c = false) :
    lstripL (c :: t) = c :: t := by
  simp [lstripL, List.dropWhile_cons, h]

theorem rstripL_concat {d : Char} (t : List Char) (h : isPyWS d = false) :
    rstripL (t ++ [d]) = t ++ [d] := by
  simp [rstripL, List.dropWhile_cons, h]

theorem startsWithL_append_ws :
    ∀ (nd : List Char), (∀ c ∈ nd, isPyWS c = false) →
    ∀ (s w : List Char), (∀ c ∈ w, isPyWS c = true) →
    startsWithL nd (s ++ w) = startsWithL nd s := by
  intro nd
  induction nd with
  | nil => intro _ s w _; rfl
  | cons a nd ih =>
    intro hnd s w hw
    have ha : isPyWS a = false := hnd a (List.mem_cons_self a nd)
    cases s with
    | nil =>
      cases w with
      | nil => rfl
      | cons c w2 =>
        have hc : isPyWS c = true := hw c (List.mem_cons_self c w2)
        have hne : (a = c) = False := by
          simp only [eq_iff_iff, iff_false]
          intro hac
          rw [hac, hc] at ha
          exact absurd ha (by simp)
        simp [startsWithL, hne]
    | cons c s2 =>
      simp only [List.cons_append, startsWithL, List.append_eq]
      rw [ih (fun x hx => hnd x (List.mem_cons_of_mem a hx)) s2 w hw]

theorem containsSub_all_ws {a : Char} {nd : List Char}
    (ha : isPyWS a = false) :
    ∀ (w : List Char), (∀ c ∈ w, isPyWS c = true) →
    containsSub (a :: nd) w = false := by
  intro w
  induction w with
  | nil => intro _; rfl
  | cons c w2 ih =>
    intro hw
    have hc : isPyWS c = true := hw c (List.mem_cons_self c w2)
    have hne : (a = c) = False := by
      simp only [eq_iff_iff, iff_false]
      intro hac
      rw [hac, hc] at ha
      exact absurd ha (by simp)
    simp only [containsSub, startsWithL, hne, decide_False, Bool.false_and,
      Bool.false_or]
    exact ih (fun x hx => hw x (List.mem_cons_of_mem c hx))

theorem containsSub_append_ws_left {a : Char} {nd : List Char}
    (ha : isPyWS a = false) :
    ∀ (w : List Char), (∀ c ∈ w, isPyWS c = true) →
    ∀ (s : List Char), containsSub (a :: nd) (w ++ s) = containsSub (a :: nd) s := by
  intro w
  induction w with
  | nil => intro _ s; rfl
  | cons c w2 ih =>
    intro hw s
    have hc : isPyWS c = true := hw c (List.mem_cons_self c w2)
    have hne : (a = c) = False := by
      simp only [eq_iff_iff, iff_false]
      intro hac
      rw [hac, hc] at ha
      exact absurd ha (by simp)
    simp only [List.cons_append, containsSub, startsWithL, hne, decide_False,
      Bool.false_and, Bool.false_or]
    exact ih (fun x hx => hw x (List.mem_cons_of_mem c hx)) s

theorem containsSub_append_ws_right {a : Char} {nd : List Char}
    (ha : isPyWS a = false) (hnd : ∀ c ∈ a :: nd, isPyWS c = false) :
    ∀ (s w : List Char), (∀ c ∈ w, isPyWS c = true) →
    containsSub (a :: nd) (s ++ w) = containsSub (a :: nd) s := by
  intro s
  induction s with
  | nil =>
    intro w hw
    rw [List.nil_append, containsSub_all_ws ha w hw]
    rfl
  | cons c s2 ih =>
    intro w hw
    have h1 := startsWithL_append_ws (a :: nd) hnd (c :: s2) w hw
    simp only [List.cons_append, List.append_eq] at h1
    simp only [List.cons_append, containsSub, List.append_eq]
    rw [h1, ih w hw]

theorem containsSub_stripL {a : Char} {nd : List Char}
    (hnd : ∀ c ∈ a :: nd, isPyWS c = false) (s : List Char) :
    containsSub (a :: nd) (stripL s) = containsSub (a :: nd) s := by
  have ha : isPyWS a = false := hnd a (List.mem_cons_self a nd)
  have hdec1 : s = s.takeWhile isPyWS ++ lstripL s :=
    (List.takeWhile_append_dropWhile isPyWS s).symm
  have hw1 : ∀ c ∈ s.takeWhile isPyWS, isPyWS c = true :=
    fun c hc => List.mem_takeWhile_imp hc
  have hdec2 : lstripL s = stripL s ++ ((lstripL s).reverse.takeWhile isPyWS).reverse := by
    unfold stripL rstripL
    conv_lhs => rw [← List.reverse_reverse (lstripL s)]
    conv_lhs => rw [← List.takeWhile_append_dropWhile isPyWS (lstripL s).reverse]
    rw [List.reverse_append]
  have hw2 : ∀ c ∈ ((lstripL s).reverse.takeWhile isPyWS).reverse, isPyWS c = true := by
    intro c hc
    exact List.mem_takeWhile_imp (List.mem_reverse.mp hc)
  calc containsSub (a :: nd) (stripL s)
      = containsSub (a :: nd) (stripL s ++ ((lstripL s).reverse.takeWhile isPyWS).reverse) :=
        (containsSub_append_ws_right ha hnd _ _ hw2).symm
    _ = containsSub (a :: nd) (lstripL s) := by rw [← hdec2]
    _ = containsSub (a :: nd) (s.takeWhile isPyWS ++ lstripL s) :=
        (containsSub_append_ws_left ha _ hw1 _).symm
    _ = containsSub (a :: nd) s := by rw [← hdec1]

end UITars
namespace UITars

/-- An optional field value that is unset or holds a raw string — never
a numeric list. -/
def strOrNone (o : Option PyVal) : Prop :=
  o = none ∨ ∃ v, o = some (.s v)

/-- The two absolute-coordinate fields hold no computed numeric
coordinates. -/
def noComputedCoords (ai : ActionInputs) : Prop :=
  strOrNone ai.start_coords ∧ strOrNone ai.end_coords

theorem setattrAI_s_pred {ai : ActionInputs} (n : List Char) (v : List Char)
    (h : noComputedCoords ai) : noComputedCoords (setattrAI ai n (.s v)) := by
  unfold setattrAI
  split_ifs <;>
    first
      | exact h
      | exact ⟨h.1, h.2⟩
      | exact ⟨Or.inr ⟨v, rfl⟩, h.2⟩
      | exact ⟨h.1, Or.inr ⟨v, rfl⟩⟩

theorem setattrAI_other_pred {ai : ActionInputs} {n : List Char} (v : PyVal)
    (h : noComputedCoords ai) (h1 : n ≠ cStartCoords) (h2 : n ≠ cEndCoords) :
    noComputedCoords (setattrAI ai n v) := by
  unfold setattrAI
  split_ifs <;> exact ⟨h.1, h.2⟩

theorem box_name_ne_coords {pname : List Char}
    (h : (containsSub cStartBox pname || containsSub cEndBox pname) = true) :
    stripL pname ≠ cStartCoords ∧ stripL pname ≠ cEndCoords := by
  have hsb : ∀ c ∈ cStartBox, isPyWS c = false := by decide
  have heb : ∀ c ∈ cEndBox, isPyWS c = false := by decide
  have hs : containsSub cStartBox (stripL pname) = containsSub cStartBox pname := by
    exact containsSub_stripL hsb pname
  have he : containsSub cEndBox (stripL pname) = containsSub cEndBox pname := by
    exact containsSub_stripL heb pname
  constructor
  · intro heq
    rw [heq] at hs he
    rcases Bool.or_eq_true_iff.mp h with h2 | h2
    · rw [← hs] at h2
      exact absurd h2 (by decide)
    · rw [← he] at h2
      exact absurd h2 (by decide)
  · intro heq
    rw [heq] at hs he
    rcases Bool.or_eq_true_iff.mp h with h2 | h2
    · rw [← hs] at h2
      exact absurd h2 (by decide)
    · rw [← he] at h2
      exact absurd h2 (by decide)

theorem applyBox_pred {fw fh : ℚ} {sc : Option ScreenCtx} {scale : Option ℚ}
    {pname trimmed : List Char} {ai ai' : ActionInputs}
    (hctx : ctxTruthy sc = false)
    (hbox : (containsSub cStartBox pname || containsSub cEndBox pname) = true)
    (hai : noComputedCoords ai)
    (h : applyBox fw fh sc scale pname trimmed ai = .ok ai') :
    noComputedCoords ai' := by
  unfold applyBox at h
  cases hn : normNumbers fw fh 0 (boxNumbers trimmed) with
  | error e => rw [hn] at h; exact absurd h (by simp)
  | ok floats0 =>
    rw [hn] at h
    simp only [hctx, Bool.false_eq_true, if_false] at h
    injection h with h
    subst h
    obtain ⟨h1, h2⟩ := box_name_ne_coords hbox
    exact setattrAI_other_pred _ hai h1 h2

theorem procArgs_pred {fw fh : ℚ} {sc : Option ScreenCtx} {scale : Option ℚ}
    (hctx : ctxTruthy sc = false) :
    ∀ (args : List (List Char × List Char)) (ai ai' : ActionInputs),
    noComputedCoords ai → procArgs fw fh sc scale args ai = .ok ai' →
    noComputedCoords ai' := by
  intro args
  induction args with
  | nil =>
    intro ai ai' hai h
    unfold procArgs at h
    injection h with h
    subst h
    exact hai
  | cons p rest ih =>
    intro ai ai' hai h
    obtain ⟨pname, pval⟩ := p
    unfold procArgs at h
    by_cases hemp : pval.isEmpty
    · rw [if_pos hemp] at h
      exact ih ai ai' hai h
    · rw [if_neg hemp] at h
      have hai1 : noComputedCoords (setattrAI ai (stripL pname) (.s (stripL pval))) :=
        setattrAI_s_pred _ _ hai
      by_cases hbox : (containsSub cStartBox pname || containsSub cEndBox pname) = true
      · rw [if_pos hbox] at h
        cases hb : applyBox fw fh sc scale pname (stripL pval)
            (setattrAI ai (stripL pname) (.s (stripL pval))) with
        | error e => rw [hb] at h; exact absurd h (by simp)
        | ok ai2 =>
          rw [hb] at h
          exact ih ai2 ai' (applyBox_pred hctx hbox hai1 hb) h
      · rw [if_neg hbox] at h
        exact ih _ ai' hai1 h

end UITars
namespace UITars

theorem takeWhile_append_cons {p : Char → Bool} :
    ∀ (xs : List Char) (y : Char) (ys : List Char),
    (∀ c ∈ xs, p c = true) → p y = false →
    (xs ++ y :: ys).takeWhile p = xs := by
  intro xs
  induction xs with
  | nil =>
    intro y ys _ hy
    simp [List.takeWhile_cons, hy]
  | cons a xs ih =>
    intro y ys hxs hy
    have ha : p a = true := hxs a (List.mem_cons_self a xs)
    simp only [List.cons_append, List.takeWhile_cons, ha, if_true]
    rw [ih y ys (fun c hc => hxs c (List.mem_cons_of_mem a hc)) hy]

theorem stripL_call_noop {a : Char} (name' args : List Char)
    (ha : isPyWS a = false) :
    stripL ((a :: name') ++ ('(' :: (args ++ [')']))) =
      (a :: name') ++ ('(' :: (args ++ [')'])) := by
  unfold stripL
  rw [List.cons_append, lstripL_cons _ ha, ← List.cons_append]
  have hshape : (a :: name') ++ ('(' :: (args ++ [')'])) =
      ((a :: name') ++ ('(' :: args)) ++ [')'] := by
    simp
  rw [hshape, rstripL_concat _ (by decide), ← hshape]

theorem funcMatch_call (name args : List Char) (hne : name ≠ [])
    (hword : ∀ c ∈ name, isWordChar c = true)
    (hnl : args.contains '\n' = false) :
    funcMatch (name ++ ('(' :: (args ++ [')']))) = some (name, args) := by
  have htake : (name ++ ('(' :: (args ++ [')']))).takeWhile isWordChar = name :=
    takeWhile_append_cons name '(' (args ++ [')']) hword (by decide)
  have hdrop : (name ++ ('(' :: (args ++ [')']))).drop name.length =
      '(' :: (args ++ [')']) := List.drop_left name ('(' :: (args ++ [')']))
  have hnameb : name.isEmpty = false := by
    cases name with
    | nil => exact absurd rfl hne
    | cons a t => rfl
  simp only [funcMatch, htake, hdrop, hnameb, Bool.false_eq_true, if_false,
    List.getLast?_concat, List.dropLast_concat, hnl]

end UITars
namespace UITars

theorem rstripQ_concat_quote {q : Char} (hq : isQuoteCh q = true)
    (x : List Char) : rstripQ (x ++ [q]) = rstripQ x := by
  unfold rstripQ dropQ
  rw [List.reverse_append]
  simp [List.dropWhile_cons, hq]

theorem stripCharsQ_wrap {q : Char} (hq : isQuoteCh q = true) :
    ∀ (v : List Char), stripCharsQ (q :: (v ++ [q])) = stripCharsQ v := by
  intro v
  induction v with
  | nil =>
    simp [stripCharsQ, dropQ, rstripQ, List.dropWhile_cons, hq]
  | cons c v2 ih =>
    by_cases hc : isQuoteCh c = true
    · have h1 : stripCharsQ (q :: ((c :: v2) ++ [q])) =
          stripCharsQ (q :: (v2 ++ [q])) := by
        simp only [stripCharsQ, dropQ, List.cons_append, List.dropWhile_cons,
          hq, hc, if_true]
      have h2 : stripCharsQ (c :: v2) = stripCharsQ v2 := by
        simp only [stripCharsQ, dropQ, List.dropWhile_cons, hc, if_true]
      rw [h1, ih, h2]
    · have hcf : isQuoteCh c = false := by
        cases h : isQuoteCh c with
        | false => rfl
        | true => exact absurd h hc
      have h1 : stripCharsQ (q :: ((c :: v2) ++ [q])) =
          rstripQ ((c :: v2) ++ [q]) := by
        simp only [stripCharsQ, dropQ, List.cons_append, List.dropWhile_cons,
          hq, hcf, if_true, Bool.false_eq_true, if_false]
      have h2 : stripCharsQ (c :: v2) = rstripQ (c :: v2) := by
        simp only [stripCharsQ, dropQ, List.dropWhile_cons, hcf,
          Bool.false_eq_true, if_false]
      rw [h1, h2, rstripQ_concat_quote hq]

end UITars
namespace UITars

/-! ### Claim theorems -/

/-- C1 counterexample: on query box (10,10)-(20,20) with candidates
`elemA` (spans 0-15, area 225) and `elemB` (spans 0-100, area 10000),
`get_element_by_bbox` returns `elemA` even though `elemA` does not
fully contain the query box (only `elemB` does): the source checks
only the query box's top-left corner against the element spans. -/
theorem c1_counterexample :
    get_element_by_bbox (10, 10, 20, 20) [elemA, elemB] = some elemA ∧
    specFullyContains (10, 10, 20, 20) elemA = false ∧
    specFullyContains (10, 10, 20, 20) elemB = true ∧
    elemA ≠ elemB := by
  refine ⟨by decide, by decide, by decide, by decide⟩

/-- C1 (amended): `get_element_by_bbox` returns the first
minimum-area element among the candidates whose horizontal span
contains the query box's left edge and whose vertical span contains
its top edge (the right and bottom edges are never consulted), and
`none` exactly when no candidate passes that corner test. -/
theorem c1_resolver_min_area_first (bbox : ℚ × ℚ × ℚ × ℚ)
    (els : List DOMElem) :
    get_element_by_bbox bbox els = resolveMinFirst bbox els := by
  unfold get_element_by_bbox resolveMinFirst
  cases h : els.filter (elMatches bbox) with
  | nil => rfl
  | cons e rest =>
    have h0 : pickSmallest none (e :: rest) = pickSmallest (some e) rest := by
      simp [pickSmallest]
    rw [h0, pickSmallest_eq_findMin]

/-- C2 (code bug): a non-numeric coordinate component in a region
descriptor makes `float` raise a `ValueError` that escapes
`parse_action_vlm` — the `[]` fallback guarded by the `isinstance`
check at lines 80-89 is unreachable — with or without screen
context. -/
theorem c2_nonnumeric_component_raises :
    parse_action_vlm exBadBox (1000, 1000) (some ⟨some 1000, some 800⟩) none =
      .error .valueError ∧
    parse_action_vlm exBadBox (1000, 1000) none none = .error .valueError := by
  refine ⟨by decide, by decide⟩

/-- C10: an element whose viewport-coordinates accessor yields no
rectangle is skipped by `get_element_by_bbox` and can never be the
returned element. -/
theorem c10_skips_coordless (bbox : ℚ × ℚ × ℚ × ℚ) (els : List DOMElem)
    (e : DOMElem) (hmem : e ∈ els) (hnone : e.viewport_coordinates = none) :
    get_element_by_bbox bbox els ≠ some e := by
  intro hsome
  unfold get_element_by_bbox at hsome
  rcases pickSmallest_mem hsome with h | h
  · exact absurd h (by simp)
  · have hm := (List.mem_filter.mp h).2
    simp [elMatches, hnone] at hm

/-- C10 witness at a concrete coordinate-less element. -/
theorem c10_witness :
    get_element_by_bbox (0, 0, 0, 0) [elemNoCoords] ≠ some elemNoCoords :=
  c10_skips_coordless (0, 0, 0, 0) [elemNoCoords] elemNoCoords
    (by simp) rfl

end UITars
namespace UITars

/-- C3 counterexample: `click(content='')` — a validly quoted empty
argument value — fails the parse of the whole action (`parse_action`
returns the sentinel) instead of preserving `content` as an empty
string: the tokenizer's `next(...)` raises `StopIteration` when every
value capture group is empty, and `parse_action` catches it. -/
theorem c3_counterexample :
    parse_action exEmptyContent = none ∧
    parse_action_args_pair ("content=".data ++ [qS, qS]) = .error () := by
  refine ⟨by decide, by decide⟩

/-- C3 (amended): an argument with a validly quoted empty value makes
the Argument Tokenizer raise, and the Action Parser then returns the
parse-failed sentinel for the whole action; empty argument values are
never preserved. Whenever the tokenizer fails on the argument text of
a well-shaped call, the whole action parses to `none`. -/
theorem c3_empty_quoted_fails_action (name args : List Char)
    (hne : name ≠ []) (hword : ∀ c ∈ name, isWordChar c = true)
    (hnl : args.contains '\n' = false)
    (hnemp : (stripL args).isEmpty = false)
    (htok : parse_action_args_pair args = .error ()) :
    parse_action (name ++ ('(' :: (args ++ [')']))) = none := by
  cases name with
  | nil => exact absurd rfl hne
  | cons a name' =>
    have ha : isPyWS a = false :=
      wordChar_not_ws (hword a (List.mem_cons_self a name'))
    simp only [parse_action, stripL_call_noop name' args ha,
      funcMatch_call (a :: name') args hne hword hnl, hnemp,
      Bool.false_eq_true, if_false, htok]

/-- C3 witness: the amended statement applied to `click(content='')`. -/
theorem c3_witness :
    parse_action ("click".data ++ ('(' :: (("content=".data ++ [qS, qS]) ++ [')']))) =
      none :=
  c3_empty_quoted_fails_action "click".data ("content=".data ++ [qS, qS])
    (by decide) (by decide) (by decide) (by decide) (by decide)

/-- C4 counterexample: for `click(key="'hello'")` the tokenizer emits
the pair with value `'hello'` (outer double quotes consumed by the
capture group), and `value.strip` on the quote set then removes the
inner single quotes as well, so the parsed value is `hello`, not
`'hello'` — one layer is not preserved. -/
theorem c4_counterexample :
    parse_action exNestedQuotes =
      some ⟨"click".data, [("key".data, "hello".data)]⟩ ∧
    parse_action exNestedQuotes ≠
      some ⟨"click".data, [("key".data, qS :: ("hello".data ++ [qS]))]⟩ := by
  refine ⟨by decide, by decide⟩

/-- C4 (amended): the Action Parser strips every leading and trailing
quote character (single or double, any nesting depth) from the value
— Python `strip` removes a character run, not a single layer — so a
quoted value nested inside another quoted value loses its inner quotes
too; wrapping a value in one more quote layer never changes the
stripped result. -/
theorem c4_strips_all_quote_layers :
    parse_action exNestedQuotes =
      some ⟨"click".data, [("key".data, "hello".data)]⟩ ∧
    ∀ (q : Char) (v : List Char), isQuoteCh q = true →
      stripCharsQ (q :: (v ++ [q])) = stripCharsQ v :=
  ⟨by decide, fun q v hq => stripCharsQ_wrap hq v⟩

/-- C4 witness: one extra single-quote layer around `ab` strips to the
same value. -/
theorem c4_witness :
    stripCharsQ (qS :: ("ab".data ++ [qS])) = stripCharsQ "ab".data :=
  c4_strips_all_quote_layers.2 qS "ab".data (by decide)

/-- C5: normalizing `click(start_box='(500,500)')` with factors
(1000, 1000) stores the relative rectangle [1/2, 1/2, 1/2, 1/2]
(the serialized form of `[0.5, 0.5, 0.5, 0.5]`) on the `start_box`
field; in general each component is divided by the factor of its axis
(even positions by the first factor, odd by the second) and a
2-element input is duplicated into a degenerate 4-element
rectangle. -/
theorem c5_normalization_roundtrip :
    parse_action_vlm exClick500 (1000, 1000) none none =
      .ok [⟨{ start_box := some (.ns [1/2, 1/2, 1/2, 1/2]) },
        "click".data, [], none⟩] ∧
    ∀ (s1 s2 : List Char) (q1 q2 fw fh : ℚ),
      pyFloatQ? s1 = some q1 → pyFloatQ? s2 = some q2 →
      fw ≠ 0 → fh ≠ 0 →
      normNumbers fw fh 0 [s1, s2] = .ok [q1 / fw, q2 / fh] ∧
      extendTo4 [q1 / fw, q2 / fh] = [q1 / fw, q2 / fh, q1 / fw, q2 / fh] := by
  constructor
  · decide
  · intro s1 s2 q1 q2 fw fh h1 h2 hfw hfh
    constructor
    · simp [normNumbers, h1, h2, hfw, hfh]
    · rfl

/-- C5 witness: the general normalization statement at the concrete
components of the claim. -/
theorem c5_witness :
    normNumbers 1000 1000 0 ["500".data, "500".data] =
      .ok [(500 : ℚ) / 1000, (500 : ℚ) / 1000] ∧
    extendTo4 [(500 : ℚ) / 1000, (500 : ℚ) / 1000] =
      [(500 : ℚ) / 1000, (500 : ℚ) / 1000, (500 : ℚ) / 1000, (500 : ℚ) / 1000] :=
  c5_normalization_roundtrip.2 "500".data "500".data 500 500 1000 1000
    (by decide) (by decide) (by decide) (by decide)

/-- C6: with screen context width 1000 and height 800, factors
(1000, 1000) and scale factor 1, the normalized box
[1/2, 1/2, 1/2, 1/2] from `click(start_box='(500,500)')` yields the
absolute pixel point [500, 400] on `start_coords`: midpoint of the
corners, scaled by the screen dimension, rounded at factor
granularity, and multiplied by the scale factor. -/
theorem c6_absolute_point :
    parse_action_vlm exClick500 (1000, 1000) (some ⟨some 1000, some 800⟩)
      (some 1) =
    .ok [⟨{ start_box := some (.ns [1/2, 1/2, 1/2, 1/2]),
            start_coords := some (.ns [500, 400]) },
      "click".data, [], none⟩] := by
  decide

end UITars
namespace UITars

/-- C7 counterexample: the action text `click(start_coords=5)` makes
the generic `setattr` of line 58 populate the absolute-coordinates
field with the raw string `5` even though no screen context was
supplied, so "populated only when the caller supplies non-zero screen
context" fails as stated over every input text. -/
theorem c7_counterexample :
    parse_action_vlm "click(start_coords=5)".data (1000, 1000) none none =
      .ok [⟨{ start_coords := some (.s "5".data) }, "click".data, [], none⟩] ∧
    (⟨{ start_coords := some (.s "5".data) }, "click".data, [], none⟩ :
      PredictionParsed).action_inputs.start_coords ≠ none := by
  refine ⟨by decide, by decide⟩

/-- C7 (amended): when the screen-context test is falsy (context
absent, or width or height missing or zero), `parse_action_vlm` never
computes absolute coordinates: in every returned record the
`start_coords` and `end_coords` fields are unset unless the action
text itself passed an argument literally named `start_coords` or
`end_coords`, in which case the field holds that argument's raw
string — never a numeric coordinate list. -/
theorem c7_no_computed_coords_without_ctx (text : List Char)
    (factors : ℚ × ℚ) (sc : Option ScreenCtx) (scale : Option ℚ)
    (l : List PredictionParsed) (hctx : ctxTruthy sc = false)
    (h : parse_action_vlm text factors sc scale = .ok l) :
    ∀ r ∈ l, strOrNone r.action_inputs.start_coords ∧
      strOrNone r.action_inputs.end_coords := by
  intro r hr
  simp only [parse_action_vlm] at h
  obtain ⟨c, _, hpc⟩ := mapExcept_ok_mem h r hr
  cases hp : parse_action (lstripL (replaceSub ['\n'] ['\\', 'n'] c)) with
  | none =>
    simp only [processChunk, hp] at hpc
    injection hpc with hpc
    subst hpc
    exact ⟨Or.inl rfl, Or.inl rfl⟩
  | some fc =>
    simp only [processChunk, hp] at hpc
    cases hq : procArgs factors.1 factors.2 sc scale fc.args {} with
    | error e => simp only [hq] at hpc; exact absurd hpc (by simp)
    | ok ai =>
      simp only [hq] at hpc
      injection hpc with hpc
      subst hpc
      exact procArgs_pred hctx fc.args {} ai ⟨Or.inl rfl, Or.inl rfl⟩ hq

/-- C7 witness: the amended statement at `click(start_box='(500,500)')`
with no screen context. -/
theorem c7_witness :
    strOrNone (⟨{ start_box := some (.ns [1/2, 1/2, 1/2, 1/2]) },
      "click".data, [], none⟩ : PredictionParsed).action_inputs.start_coords ∧
    strOrNone (⟨{ start_box := some (.ns [1/2, 1/2, 1/2, 1/2]) },
      "click".data, [], none⟩ : PredictionParsed).action_inputs.end_coords :=
  c7_no_computed_coords_without_ctx exClick500 (1000, 1000) none none
    [⟨{ start_box := some (.ns [1/2, 1/2, 1/2, 1/2]) }, "click".data, [], none⟩]
    rfl (by decide) _ (by simp)

/-- C8: a response with a leading thought and two action strings
separated by a blank line yields exactly the two records in source
order, both carrying the thought `do X`; and for every response, all
returned records share the thought and reflection extracted once from
the response text. -/
theorem c8_multi_action_shared_thought :
    parse_action_vlm exTwoActions (1000, 1000) none none =
      .ok [⟨{ start_box := some (.ns [1/10, 1/10, 1/10, 1/10]) },
             "click".data, "do X".data, none⟩,
           ⟨{ content := some (.s "hello".data) },
             "type".data, "do X".data, none⟩] ∧
    ∀ (text : List Char) (factors : ℚ × ℚ) (sc : Option ScreenCtx)
      (scale : Option ℚ) (l : List PredictionParsed),
      parse_action_vlm text factors sc scale = .ok l →
      ∀ r ∈ l, r.thought = ((extractRT (stripL text)).2).getD [] ∧
        r.reflection = (extractRT (stripL text)).1 := by
  constructor
  · decide
  · intro text factors sc scale l h r hr
    simp only [parse_action_vlm] at h
    obtain ⟨c, _, hpc⟩ := mapExcept_ok_mem h r hr
    cases hp : parse_action (lstripL (replaceSub ['\n'] ['\\', 'n'] c)) with
    | none =>
      simp only [processChunk, hp] at hpc
      injection hpc with hpc
      subst hpc
      exact ⟨rfl, rfl⟩
    | some fc =>
      simp only [processChunk, hp] at hpc
      cases hq : procArgs factors.1 factors.2 sc scale fc.args {} with
      | error e => simp only [hq] at hpc; exact absurd hpc (by simp)
      | ok ai =>
        simp only [hq] at hpc
        injection hpc with hpc
        subst hpc
        exact ⟨rfl, rfl⟩

/-- C8 witness: the sharing statement applied to the concrete
two-action response, via the concrete run itself. -/
theorem c8_witness :
    (⟨{ start_box := some (.ns [1/10, 1/10, 1/10, 1/10]) },
      "click".data, "do X".data, none⟩ : PredictionParsed).thought =
      ((extractRT (stripL exTwoActions)).2).getD [] ∧
    (⟨{ start_box := some (.ns [1/10, 1/10, 1/10, 1/10]) },
      "click".data, "do X".data, none⟩ : PredictionParsed).reflection =
      (extractRT (stripL exTwoActions)).1 :=
  c8_multi_action_shared_thought.2 exTwoActions (1000, 1000) none none
    [⟨{ start_box := some (.ns [1/10, 1/10, 1/10, 1/10]) },
       "click".data, "do X".data, none⟩,
     ⟨{ content := some (.s "hello".data) },
       "type".data, "do X".data, none⟩]
    c8_multi_action_shared_thought.1 _ (by simp)

/-- C9 counterexample: `click(start_box=)` does match the
function-call shape `^(\w+)\((.*)\)$`, so `parse_action` returns a
parsed call with function `click` and empty arguments (not the
sentinel), and the emitted record carries action type `click`, not the
empty type. -/
theorem c9_counterexample :
    parse_action "click(start_box=)".data = some ⟨"click".data, []⟩ ∧
    parse_action_vlm "click(start_box=)".data (1000, 1000) none none =
      .ok [⟨{}, "click".data, [], none⟩] ∧
    "click".data ≠ ([] : List Char) := by
  refine ⟨by decide, by decide, by decide⟩

/-- C9 (amended): every action string whose stripped text does not
match the function-call shape makes `parse_action` return the
parse-failed sentinel (no exception escapes), and `parse_action_vlm`
still emits one record per raw chunk in position, with an empty action
type and default inputs at every chunk whose parse failed. The text
`click(start_box=)`, however, does match the shape and yields an
action with empty inputs. -/
theorem c9_sentinel_and_default_record :
    (∀ s, funcMatch (stripL s) = none → parse_action s = none) ∧
    (∀ (text : List Char) (factors : ℚ × ℚ) (sc : Option ScreenCtx)
      (scale : Option ℚ) (l : List PredictionParsed),
      parse_action_vlm text factors sc scale = .ok l →
      l.length = (vlmChunks (stripL text)).length ∧
      ∀ (i : ℕ) (c : List Char) (r : PredictionParsed),
        (vlmChunks (stripL text))[i]? = some c → l[i]? = some r →
        parse_action (lstripL (replaceSub ['\n'] ['\\', 'n'] c)) = none →
        r.action_type = [] ∧ r.action_inputs = {}) := by
  constructor
  · intro s h
    simp only [parse_action, h]
  · intro text factors sc scale l h
    simp only [parse_action_vlm] at h
    refine ⟨mapExcept_ok_length h, ?_⟩
    intro i c r hc hr hpn
    have hf := mapExcept_ok_getElem? h i c r hc hr
    unfold processChunk at hf
    rw [hpn] at hf
    injection hf with hf
    subst hf
    exact ⟨rfl, rfl⟩

/-- C9 witness: a string without the function-call shape parses to the
sentinel. -/
theorem c9_witness : parse_action "garbage".data = none :=
  c9_sentinel_and_default_record.1 "garbage".data (by decide)

end UITars
